import Mathlib

/-!
Shallow embedding of `nada_data` (files `src/nada_data/array/nada_array.py` and
`src/nada_data/array/functions/arithmetic.py`).

Modelling conventions:
* A secret value (`secret_int` in the source) is either a plain `SecretInteger`
  carrying an expression graph, an `audit.SecretInteger` carrying an explicit
  party list, or some other Python object (rejected by `_check_type`).  Parties
  are identified by their `name` string, which is the only attribute the code
  reads.
* Expression-graph nodes (`nada_dsl` objects) are `Input` (optional owning
  party), `Literal`, or an operator node exposing an optional sub-node for each
  of the six attribute names probed by `_gather_parties`
  (`inner`, `left`, `right`, `arg_0`, `arg_1`, `this`).
* Python exceptions are modelled by returning the post-call state together with
  an `Option Err`: `none` means normal return, `some e` means the exception `e`
  escaped while the object was left in the modelled state.
* Python machine state is immutable here: every method returns the new
  `NadaArray` value.
-/

/-- The two exception kinds raised by the code: `TypeError` and `IndexError`. -/
inductive Err where
  | typeError
  | indexError
deriving DecidableEq, Repr

/-- Expression-graph node (`nada_dsl` side, read-only for this code):
`Input` holds an optional owning party (its `name`), `Literal` holds nothing,
and any other node exposes an optional child for each of the six attribute
names probed by `_gather_parties`: `inner`, `left`, `right`, `arg_0`, `arg_1`,
`this`.  A node with all six absent is an opaque leaf. -/
inductive ExprNode where
  | input (party : Option String)
  | literal
  | op (inner left right arg_0 arg_1 this_ : Option ExprNode)

/-- `_gather_parties(node)` (module level, `nada_array.py` lines 16-36): the
recursive traversal collecting `party.name` from every reachable `Input` that
owns a party, stopping at `Literal`, and recursing through whichever of the six
probed attributes a node exposes. -/
def gather_parties : ExprNode → Finset String
  | .input (some p) => {p}
  | .input none => ∅
  | .literal => ∅
  | .op i l r a0 a1 t =>
      (match i with | some n => gather_parties n | none => ∅) ∪
      (match l with | some n => gather_parties n | none => ∅) ∪
      (match r with | some n => gather_parties n | none => ∅) ∪
      (match a0 with | some n => gather_parties n | none => ∅) ∪
      (match a1 with | some n => gather_parties n | none => ∅) ∪
      (match t with | some n => gather_parties n | none => ∅)

/-- Contribution of one optionally exposed link of an operator node:
the traversal of the sub-node when the attribute is present, nothing
otherwise. -/
def gatherOpt (o : Option ExprNode) : Finset String :=
  match o with
  | some n => gather_parties n
  | none => ∅

/-- A candidate element: a plain `SecretInteger` (with its expression graph),
an `audit.SecretInteger` (with its `parties` list of party names), or any
other Python value (rejected by `_check_type`). -/
inductive Item where
  | plain (node : ExprNode)
  | audited (parties : List String)
  | other

/-- `NadaArray._check_type` (lines 88-94): `type(item) in secret_int_types`,
i.e. the item is exactly one of the two accepted secret-integer classes.
The source raises `TypeError` when this is false. -/
def check_type : Item → Bool
  | .plain _ => true
  | .audited _ => true
  | .other => false

/-- `NadaArray._gather_parties` (static method, lines 124-130): audited values
yield `{p.name for p in obj.parties}` directly; plain values are resolved by
the module-level graph traversal; anything else yields the empty set. -/
def gather_parties_item : Item → Finset String
  | .audited ps => ps.toFinset
  | .plain n => gather_parties n
  | .other => ∅

/-- The `NadaArray` state: `self._data` and `self._parties`. -/
structure NadaArray where
  data : List Item
  parties : Finset String

/-- `NadaArray._update_parties` (lines 132-136): recompute
`{party for obj in self for party in self._gather_parties(obj)}`,
the union of the resolved provenance of all current elements. -/
def update_parties (l : List Item) : Finset String :=
  l.foldr (fun it acc => gather_parties_item it ∪ acc) ∅

/-- `NadaArray.append` (lines 96-103): `_check_type`, then push onto `_data`,
then `_add_parties` (union the item's resolved provenance into `_parties`).
On `TypeError` the state is unchanged. -/
def NadaArray.append (a : NadaArray) (item : Item) : NadaArray × Option Err :=
  if check_type item then
    (⟨a.data ++ [item], a.parties ∪ gather_parties_item item⟩, none)
  else
    (a, some Err.typeError)

/-- The validation loop of `NadaArray.extend` (lines 110-112):
`for item in iterable: self._check_type(item); self._add_parties(item)`.
Returns the `_parties` value after the loop together with the exception, if
any: parties of the items strictly before a failing item have already been
folded in when `TypeError` is raised. -/
def add_parties_loop (ps : Finset String) : List Item → Finset String × Option Err
  | [] => (ps, none)
  | item :: rest =>
      if check_type item then
        add_parties_loop (ps ∪ gather_parties_item item) rest
      else
        (ps, some Err.typeError)

/-- `NadaArray.extend` (lines 105-113) applied to a list: run the validation
loop (which mutates `_parties` as it goes), then `self._data.extend(iterable)`.
When the loop raises, `_data` has not yet been touched. -/
def NadaArray.extend (a : NadaArray) (items : List Item) : NadaArray × Option Err :=
  match add_parties_loop a.parties items with
  | (ps, none) => (⟨a.data ++ items, ps⟩, none)
  | (ps, some e) => (⟨a.data, ps⟩, some e)

/-- `NadaArray.extend` (lines 105-113) applied to a one-shot generator that
yields `items`: the `for` loop consumes the generator, so the final
`self._data.extend(iterable)` iterates an exhausted generator and appends
nothing.  `_parties` still receives every yielded item's provenance. -/
def NadaArray.extendGen (a : NadaArray) (items : List Item) : NadaArray × Option Err :=
  match add_parties_loop a.parties items with
  | (ps, none) => (⟨a.data, ps⟩, none)
  | (ps, some e) => (⟨a.data, ps⟩, some e)

/-- Effective position used by Python `list.insert` for a (possibly negative,
possibly out-of-range) index on a list of length `n`: negative indices count
from the end and are clamped at `0`; non-negative indices are clamped at `n`.
Python `list.insert` never raises for an out-of-range index. -/
def pyInsertPos (n : Nat) (i : Int) : Nat :=
  if i < 0 then (i + n).toNat else min i.toNat n

/-- Insert `x` at position `p` of `l`, Python `list.insert` style (a position
past the end appends; positions here are already clamped by `pyInsertPos`). -/
def listInsertAt : Nat → Item → List Item → List Item
  | 0, x, l => x :: l
  | _ + 1, x, [] => [x]
  | p + 1, x, a :: l => a :: listInsertAt p x l

/-- `NadaArray.insert` (lines 115-122): `_check_type`, then
`self._data.insert(index, item)` (Python clamping semantics), then
`_add_parties(item)`. -/
def NadaArray.insert (a : NadaArray) (index : Int) (item : Item) :
    NadaArray × Option Err :=
  if check_type item then
    (⟨listInsertAt (pyInsertPos a.data.length index) item a.data,
      a.parties ∪ gather_parties_item item⟩, none)
  else
    (a, some Err.typeError)

/-- Resolution of a Python sequence index of length `n`: negative indices
count from the end; a reference outside `[0, n)` raises `IndexError`. -/
def pyIndex (n : Nat) (i : Int) : Option Nat :=
  let j := if i < 0 then i + n else i
  if 0 ≤ j ∧ j < n then some j.toNat else none

/-- `NadaArray.__setitem__` (lines 75-79): `_check_type`, then
`self._data[index] = item` (raising `IndexError` out of range), then
`_update_parties` (full recomputation). -/
def NadaArray.setItem (a : NadaArray) (index : Int) (item : Item) :
    NadaArray × Option Err :=
  if check_type item then
    match pyIndex a.data.length index with
    | some j =>
        let d := a.data.set j item
        (⟨d, update_parties d⟩, none)
    | none => (a, some Err.indexError)
  else
    (a, some Err.typeError)

/-- `NadaArray.__delitem__` (lines 84-86): `del self._data[index]` (raising
`IndexError` out of range), then `_update_parties` (full recomputation). -/
def NadaArray.delItem (a : NadaArray) (index : Int) : NadaArray × Option Err :=
  match pyIndex a.data.length index with
  | some j =>
      let d := a.data.eraseIdx j
      (⟨d, update_parties d⟩, none)
  | none => (a, some Err.indexError)

/-- A Python value passed to the `NadaArray` constructor: one of the two
secret-integer kinds, a `list`, a `tuple`, a generator (with the finite
sequence it would yield), or any other object. -/
inductive PyObj where
  | plainInt (node : ExprNode)
  | auditedInt (parties : List String)
  | list (elems : List PyObj)
  | tuple (elems : List PyObj)
  | gen (elems : List PyObj)
  | other

/-- View of a `PyObj` as a candidate element: the two secret-integer kinds
map to their `Item` forms; every other object (lists, tuples, generators
included) is a non-conforming element. -/
def toItem : PyObj → Item
  | .plainInt n => .plain n
  | .auditedInt ps => .audited ps
  | _ => .other

/-- Re-inject a stored element into the Python value it is. -/
def itemToPy : Item → PyObj
  | .plain n => .plainInt n
  | .audited ps => .auditedInt ps
  | .other => .other

/-- `append` iterated over a list, stopping at the first exception
(`for item in args: self.append(item)` in `__init__`, lines 55-56). -/
def appendAll (a : NadaArray) : List Item → NadaArray × Option Err
  | [] => (a, none)
  | item :: rest =>
      match a.append item with
      | (a', none) => appendAll a' rest
      | (a', some e) => (a', some e)

/-- `NadaArray.__init__` (lines 44-56).  With exactly one argument:
a `list` argument replaces `args`; then `args[0]` is probed for being a
generator — so a single empty list raises `IndexError` at `args[0]`, and a
list whose first element is a generator is replaced by that generator's
yields.  A single generator argument is materialised.  Every other shape
(tuples included) is left as the argument tuple.  Each resulting element then
goes through `append`. -/
def mkNadaArray (args : List PyObj) : NadaArray × Option Err :=
  match args with
  | [a0] =>
      let args1 : List PyObj :=
        match a0 with
        | .list l => l
        | _ => [a0]
      match args1 with
      | [] => (⟨[], ∅⟩, some Err.indexError)
      | b0 :: rest =>
          let args2 : List PyObj :=
            match b0 with
            | .gen g => g
            | _ => b0 :: rest
          appendAll ⟨[], ∅⟩ (args2.map toItem)
  | _ => appendAll ⟨[], ∅⟩ (args.map toItem)

/-- `NadaArray.__add__` (lines 72-73): `NadaArray(self._data + other._data)`,
i.e. the constructor applied to the single list argument holding the
concatenated elements. -/
def NadaArray.add (a b : NadaArray) : NadaArray × Option Err :=
  mkNadaArray [PyObj.list ((a.data ++ b.data).map itemToPy)]

/-- Lexicographic comparison of code-point sequences, the order Python's
`sorted` uses on strings. -/
def charListLe : List Char → List Char → Bool
  | [], _ => true
  | _ :: _, [] => false
  | a :: as, b :: bs =>
      if a = b then charListLe as bs
      else decide (a < b)

/-- Python's string order: lexicographic by code points. -/
def pyStrLe (a b : String) : Prop :=
  charListLe a.data b.data = true

instance : DecidableRel pyStrLe := fun a b =>
  inferInstanceAs (Decidable (charListLe a.data b.data = true))

instance : IsTrans String pyStrLe := by
  constructor
  have key : ∀ x y z : List Char, charListLe x y = true →
      charListLe y z = true → charListLe x z = true := by
    intro x
    induction x with
    | nil => intro y z _ _; rfl
    | cons a as ih =>
        intro y z hxy hyz
        cases y with
        | nil => simp [charListLe] at hxy
        | cons b bs =>
            cases z with
            | nil => simp [charListLe] at hyz
            | cons c cs =>
                simp only [charListLe] at hxy hyz ⊢
                by_cases hab : a = b
                · subst hab
                  rw [if_pos rfl] at hxy
                  by_cases hbc : a = c
                  · subst hbc
                    rw [if_pos rfl] at hyz ⊢
                    exact ih _ _ hxy hyz
                  · rw [if_neg hbc] at hyz ⊢
                    exact hyz
                · rw [if_neg hab] at hxy
                  have hab' : a < b := of_decide_eq_true hxy
                  by_cases hbc : b = c
                  · subst hbc
                    rw [if_neg hab]
                    exact decide_eq_true hab'
                  · rw [if_neg hbc] at hyz
                    have hbc' : b < c := of_decide_eq_true hyz
                    have hac : a < c := lt_trans hab' hbc'
                    rw [if_neg (fun h : a = c => absurd (h ▸ hac) (lt_irrefl c))]
                    exact decide_eq_true hac
  intro a b c hab hbc
  exact key a.data b.data c.data hab hbc

instance : IsAntisymm String pyStrLe := by
  constructor
  have key : ∀ x y : List Char, charListLe x y = true →
      charListLe y x = true → x = y := by
    intro x
    induction x with
    | nil =>
        intro y _ hyx
        cases y with
        | nil => rfl
        | cons b bs => simp [charListLe] at hyx
    | cons a as ih =>
        intro y hxy hyx
        cases y with
        | nil => simp [charListLe] at hxy
        | cons b bs =>
            simp only [charListLe] at hxy hyx
            by_cases hab : a = b
            · subst hab
              rw [if_pos rfl] at hxy hyx
              rw [ih bs hxy hyx]
            · rw [if_neg hab] at hxy
              rw [if_neg (fun h => hab h.symm)] at hyx
              have h1 : a < b := of_decide_eq_true hxy
              have h2 : b < a := of_decide_eq_true hyx
              exact absurd h2 (lt_asymm h1)
  intro a b hab hba
  cases a with
  | mk x =>
      cases b with
      | mk y => exact congrArg String.mk (key x y hab hba)

instance : IsTotal String pyStrLe := by
  constructor
  have key : ∀ x y : List Char,
      charListLe x y = true ∨ charListLe y x = true := by
    intro x
    induction x with
    | nil => intro y; exact Or.inl rfl
    | cons a as ih =>
        intro y
        cases y with
        | nil => exact Or.inr rfl
        | cons b bs =>
            simp only [charListLe]
            by_cases hab : a = b
            · subst hab
              rw [if_pos rfl, if_pos rfl]
              exact ih bs
            · rcases lt_or_gt_of_ne hab with h | h
              · exact Or.inl (by
                  rw [if_neg hab]
                  exact decide_eq_true h)
              · exact Or.inr (by
                  rw [if_neg (fun hba => hab hba.symm)]
                  exact decide_eq_true h)
  intro a b
  exact key a.data b.data

/-- Python's `sorted` on a collection of strings: the sorted list of the
collection's members (well-defined on multisets because `pyStrLe` is a total
order). -/
def pySorted (s : Multiset String) : List String :=
  Quot.liftOn s (fun l => List.insertionSort pyStrLe l)
    (fun l₁ l₂ h =>
      List.eq_of_perm_of_sorted
        ((List.perm_insertionSort pyStrLe l₁).trans
          (h.trans (List.perm_insertionSort pyStrLe l₂).symm))
        (List.sorted_insertionSort pyStrLe l₁)
        (List.sorted_insertionSort pyStrLe l₂))

/-- `NadaArray.__str__` (lines 64-67):
`",".join(sorted([f"'{p}'" for p in self._parties]))` inside
`f"NadaArray | len={len(self._data)} | parties=[{parties_str}]"`.
Note the names are quoted first and the quoted strings are then sorted
(`pyStrLe` is Python's lexicographic string order). -/
def NadaArray.toStr (a : NadaArray) : String :=
  "NadaArray | len=" ++ toString a.data.length ++ " | parties=[" ++
    String.intercalate ","
      (pySorted (a.parties.val.map (fun p => "'" ++ p ++ "'"))) ++ "]"

/-- The fold loop of `sum_nada_array` (`arithmetic.py` lines 22-26):
`for e in argument[1:]`, check the type of `e`, then `output = output + e`.
The addition operator of the secret values is abstracted as `add`. -/
def sumFold (add : Item → Item → Item) : Item → List Item → Except Err Item
  | acc, [] => .ok acc
  | acc, e :: rest =>
      if check_type e then sumFold add (add acc e) rest
      else .error Err.typeError

/-- `sum_nada_array` (`arithmetic.py` lines 15-28): `output = argument[0]`
(raising `IndexError` on an empty sequence, and never type-checking this
first element), then the left-to-right fold. -/
def sum_nada_array (add : Item → Item → Item) (argument : List Item) :
    Except Err Item :=
  match argument with
  | [] => .error Err.indexError
  | x :: rest => sumFold add x rest

/-- States reachable through the public mutating operations completing
normally: construction, `append`, `extend` with a list, `insert`,
indexed replacement, indexed deletion. -/
inductive Reachable : NadaArray → Prop where
  | mk (args : List PyObj) (a : NadaArray) :
      mkNadaArray args = (a, none) → Reachable a
  | append (b a : NadaArray) (item : Item) :
      Reachable b → b.append item = (a, none) → Reachable a
  | extend (b a : NadaArray) (items : List Item) :
      Reachable b → b.extend items = (a, none) → Reachable a
  | insert (b a : NadaArray) (index : Int) (item : Item) :
      Reachable b → b.insert index item = (a, none) → Reachable a
  | setItem (b a : NadaArray) (index : Int) (item : Item) :
      Reachable b → b.setItem index item = (a, none) → Reachable a
  | delItem (b a : NadaArray) (index : Int) :
      Reachable b → b.delItem index = (a, none) → Reachable a

/-! ### Helper lemmas -/

theorem update_parties_nil : update_parties [] = ∅ := rfl

theorem update_parties_cons (it : Item) (l : List Item) :
    update_parties (it :: l) = gather_parties_item it ∪ update_parties l := rfl

theorem update_parties_append (l₁ l₂ : List Item) :
    update_parties (l₁ ++ l₂) = update_parties l₁ ∪ update_parties l₂ := by
  induction l₁ with
  | nil => simp [update_parties_nil, update_parties]
  | cons it l ih =>
      simp only [List.cons_append, update_parties_cons, ih, Finset.union_assoc]

theorem update_parties_singleton (it : Item) :
    update_parties [it] = gather_parties_item it := by
  simp [update_parties_cons, update_parties_nil]

theorem add_parties_loop_fst (items : List Item) (ps : Finset String) :
    (add_parties_loop ps items).1 =
      ps ∪ update_parties (items.takeWhile check_type) := by
  induction items generalizing ps with
  | nil => simp [add_parties_loop, update_parties_nil]
  | cons it l ih =>
      cases hc : check_type it with
      | true =>
          simp only [add_parties_loop, hc, if_true, List.takeWhile_cons, ih,
            update_parties_cons, Finset.union_assoc]
      | false =>
          simp [add_parties_loop, hc, List.takeWhile_cons, update_parties_nil]

theorem add_parties_loop_ok (items : List Item) (ps : Finset String)
    (h : ∀ e ∈ items, check_type e = true) :
    add_parties_loop ps items = (ps ∪ update_parties items, none) := by
  induction items generalizing ps with
  | nil => simp [add_parties_loop, update_parties_nil]
  | cons it l ih =>
      have hc : check_type it = true := h it (List.mem_cons_self it l)
      have hrest : ∀ e ∈ l, check_type e = true :=
        fun e he => h e (List.mem_cons_of_mem it he)
      simp only [add_parties_loop, hc, if_true]
      rw [ih _ hrest, update_parties_cons, Finset.union_assoc]

theorem appendAll_ok (items : List Item) (a : NadaArray)
    (h : ∀ it ∈ items, check_type it = true) :
    appendAll a items =
      (⟨a.data ++ items, a.parties ∪ update_parties items⟩, none) := by
  induction items generalizing a with
  | nil => simp [appendAll, update_parties_nil]
  | cons it l ih =>
      have hc : check_type it = true := h it (List.mem_cons_self it l)
      have hrest : ∀ e ∈ l, check_type e = true :=
        fun e he => h e (List.mem_cons_of_mem it he)
      simp only [appendAll, NadaArray.append, hc, if_true]
      rw [ih _ hrest]
      simp [update_parties_cons, Finset.union_assoc]

theorem appendAll_parties_inv (items : List Item) (a : NadaArray)
    (h : a.parties = update_parties a.data) :
    (appendAll a items).1.parties = update_parties (appendAll a items).1.data := by
  induction items generalizing a with
  | nil => simpa [appendAll] using h
  | cons it l ih =>
      cases hc : check_type it with
      | true =>
          simp only [appendAll, NadaArray.append, hc, if_true]
          exact ih _ (by simp [h, update_parties_append, update_parties_singleton])
      | false =>
          simpa [appendAll, NadaArray.append, hc] using h

theorem mkNadaArray_parties_inv (args : List PyObj) :
    (mkNadaArray args).1.parties = update_parties (mkNadaArray args).1.data := by
  have hbase : (⟨[], ∅⟩ : NadaArray).parties = update_parties (⟨[], ∅⟩ : NadaArray).data := rfl
  match args with
  | [] => exact appendAll_parties_inv _ _ hbase
  | [a0] =>
      simp only [mkNadaArray]
      cases a0 with
      | list l =>
          cases l with
          | nil => exact hbase
          | cons b0 rest =>
              cases b0 <;> exact appendAll_parties_inv _ _ hbase
      | gen g => exact appendAll_parties_inv _ _ hbase
      | plainInt n => exact appendAll_parties_inv _ _ hbase
      | auditedInt ps => exact appendAll_parties_inv _ _ hbase
      | tuple l => exact appendAll_parties_inv _ _ hbase
      | other => exact appendAll_parties_inv _ _ hbase
  | a0 :: a1 :: rest => exact appendAll_parties_inv _ _ hbase

theorem update_parties_listInsertAt (p : Nat) (x : Item) (l : List Item) :
    update_parties (listInsertAt p x l) =
      gather_parties_item x ∪ update_parties l := by
  induction p generalizing l with
  | zero => simp [listInsertAt, update_parties_cons]
  | succ p ih =>
      cases l with
      | nil => simp [listInsertAt, update_parties_singleton, update_parties_nil]
      | cons a l' =>
          simp only [listInsertAt, update_parties_cons, ih]
          rw [Finset.union_left_comm]

theorem listInsertAt_length (p : Nat) (x : Item) (l : List Item) :
    (listInsertAt p x l).length = l.length + 1 := by
  induction p generalizing l with
  | zero => simp [listInsertAt]
  | succ p ih =>
      cases l with
      | nil => simp [listInsertAt]
      | cons a l' => simp [listInsertAt, ih]

theorem listInsertAt_eq_take_drop (p : Nat) (x : Item) (l : List Item)
    (h : p ≤ l.length) :
    listInsertAt p x l = l.take p ++ x :: l.drop p := by
  induction p generalizing l with
  | zero => simp [listInsertAt]
  | succ p ih =>
      cases l with
      | nil => simp at h
      | cons a l' =>
          simp only [listInsertAt, List.take_succ_cons, List.drop_succ_cons,
            List.cons_append, List.cons.injEq, true_and]
          exact ih l' (by simpa using h)

theorem toItem_itemToPy (it : Item) : toItem (itemToPy it) = it := by
  cases it <;> rfl

theorem itemToPy_ne_gen (it : Item) (g : List PyObj) : itemToPy it ≠ PyObj.gen g := by
  cases it <;> simp [itemToPy]

theorem pyInsertPos_le (n : Nat) (i : Int) : pyInsertPos n i ≤ n := by
  unfold pyInsertPos
  split
  · omega
  · exact min_le_right _ _

theorem add_parties_loop_none (items : List Item) (ps ps' : Finset String)
    (h : add_parties_loop ps items = (ps', none)) :
    ps' = ps ∪ update_parties items := by
  induction items generalizing ps with
  | nil =>
      simp only [add_parties_loop, Prod.mk.injEq] at h
      simp [← h.1, update_parties_nil]
  | cons it l ih =>
      cases hc : check_type it with
      | false => simp [add_parties_loop, hc] at h
      | true =>
          simp only [add_parties_loop, hc, if_true] at h
          rw [ih _ h, update_parties_cons, Finset.union_assoc]

/-! ### Claim theorems -/

/-- C1: every `NadaArray` reachable through the public mutating operations
(construction, `append`, `extend` with a list, `insert`, indexed replacement,
indexed deletion) completing normally has its cached `_parties` set equal to
the union of the resolved provenance of all current elements; in particular
deletion drops a party no remaining element depends on. -/
theorem reachable_parties_eq_update (a : NadaArray) (h : Reachable a) :
    a.parties = update_parties a.data := by
  induction h with
  | mk args a hmk =>
      have := mkNadaArray_parties_inv args
      rw [hmk] at this
      exact this
  | append b a item _ hop ih =>
      unfold NadaArray.append at hop
      cases hc : check_type item with
      | false => simp [hc] at hop
      | true =>
          simp only [hc, if_true, Prod.mk.injEq] at hop
          rw [← hop.1, ih, update_parties_append, update_parties_singleton]
  | extend b a items _ hop ih =>
      unfold NadaArray.extend at hop
      cases hloop : add_parties_loop b.parties items with
      | mk ps err =>
          cases err with
          | some e => rw [hloop] at hop; simp at hop
          | none =>
              rw [hloop] at hop
              simp only [Prod.mk.injEq, and_true] at hop
              have h1 : ps = b.parties ∪ update_parties items :=
                add_parties_loop_none items b.parties ps hloop
              rw [← hop]
              show ps = update_parties (b.data ++ items)
              rw [h1, ih, update_parties_append]
  | insert b a index item _ hop ih =>
      unfold NadaArray.insert at hop
      cases hc : check_type item with
      | false => simp [hc] at hop
      | true =>
          simp only [hc, if_true, Prod.mk.injEq] at hop
          rw [← hop.1, ih, update_parties_listInsertAt, Finset.union_comm]
  | setItem b a index item _ hop ih =>
      unfold NadaArray.setItem at hop
      cases hc : check_type item with
      | false => simp [hc] at hop
      | true =>
          simp only [hc, if_true] at hop
          cases hpi : pyIndex b.data.length index with
          | none => rw [hpi] at hop; simp at hop
          | some j =>
              rw [hpi] at hop
              simp only [Prod.mk.injEq] at hop
              rw [← hop.1]
  | delItem b a index _ hop ih =>
      unfold NadaArray.delItem at hop
      cases hpi : pyIndex b.data.length index with
      | none => rw [hpi] at hop; simp at hop
      | some j =>
          rw [hpi] at hop
          simp only [Prod.mk.injEq] at hop
          rw [← hop.1]

/-- Witness for C1: build a `NadaArray` from three audited elements, two
deriving from party `A` and one from party `B`, then delete the `B`-derived
element; the invariant yields a provenance set of exactly `{A}`. -/
theorem reachable_parties_eq_update_witness :
    ((NadaArray.delItem
        (mkNadaArray [PyObj.list [PyObj.auditedInt ["A"], PyObj.auditedInt ["A"],
          PyObj.auditedInt ["B"]]]).1 2).1).parties = {"A"} := by
  have h0 : Reachable (mkNadaArray [PyObj.list [PyObj.auditedInt ["A"],
      PyObj.auditedInt ["A"], PyObj.auditedInt ["B"]]]).1 :=
    Reachable.mk
      [PyObj.list [PyObj.auditedInt ["A"], PyObj.auditedInt ["A"],
        PyObj.auditedInt ["B"]]]
      (mkNadaArray [PyObj.list [PyObj.auditedInt ["A"], PyObj.auditedInt ["A"],
        PyObj.auditedInt ["B"]]]).1
      rfl
  have h1 : Reachable ((NadaArray.delItem
      (mkNadaArray [PyObj.list [PyObj.auditedInt ["A"], PyObj.auditedInt ["A"],
        PyObj.auditedInt ["B"]]]).1 2).1) :=
    Reachable.delItem _ _ 2 h0 rfl
  exact (reachable_parties_eq_update _ h1).trans (by decide)

/-- C2: `append` of a non-conforming item raises `TypeError` and leaves the
element sequence and provenance set unchanged; `append` of an accepted item
succeeds, grows the sequence by exactly one with the item at the end, and
replaces the provenance set by its union with the item's resolved
provenance. -/
theorem append_spec (a : NadaArray) (item : Item) :
    (check_type item = false → a.append item = (a, some Err.typeError)) ∧
    (check_type item = true →
      (a.append item).2 = none ∧
      (a.append item).1.data = a.data ++ [item] ∧
      (a.append item).1.data.length = a.data.length + 1 ∧
      (a.append item).1.parties = a.parties ∪ gather_parties_item item) := by
  constructor
  · intro hc
    simp [NadaArray.append, hc]
  · intro hc
    simp [NadaArray.append, hc]

/-- Witness for C2: appending an audited value owned by party `B` to a
one-element collection with provenance `{A}`, and appending a non-conforming
value to the same collection. -/
theorem append_spec_witness :
    (NadaArray.append ⟨[Item.audited ["A"]], {"A"}⟩ Item.other =
      (⟨[Item.audited ["A"]], {"A"}⟩, some Err.typeError)) ∧
    (NadaArray.append ⟨[Item.audited ["A"]], {"A"}⟩ (Item.audited ["B"])).1.data =
      [Item.audited ["A"], Item.audited ["B"]] ∧
    (NadaArray.append ⟨[Item.audited ["A"]], {"A"}⟩ (Item.audited ["B"])).1.parties =
      {"A"} ∪ gather_parties_item (Item.audited ["B"]) := by
  refine ⟨(append_spec ⟨[Item.audited ["A"]], {"A"}⟩ Item.other).1 rfl, ?_, ?_⟩
  · exact ((append_spec ⟨[Item.audited ["A"]], {"A"}⟩ (Item.audited ["B"])).2 rfl).2.1
  · exact ((append_spec ⟨[Item.audited ["A"]], {"A"}⟩ (Item.audited ["B"])).2 rfl).2.2.2

/-- Counterexample for C3: extending the empty collection with the batch
`[audited value of party X, non-conforming value]` raises `TypeError` and
leaves the sequence unchanged — but the provenance set is NOT as it was:
it has gained `{X}`. -/
theorem extend_not_atomic_cex :
    (NadaArray.extend ⟨[], ∅⟩ [Item.audited ["X"], Item.other]).2 =
      some Err.typeError ∧
    (NadaArray.extend ⟨[], ∅⟩ [Item.audited ["X"], Item.other]).1.data = [] ∧
    (NadaArray.extend ⟨[], ∅⟩ [Item.audited ["X"], Item.other]).1.parties ≠
      (∅ : Finset String) ∧
    (NadaArray.extend ⟨[], ∅⟩ [Item.audited ["X"], Item.other]).1.parties =
      {"X"} :=
  ⟨rfl, rfl, by decide, by decide⟩

/-- C3 as amended: a failing `extend` leaves the element sequence unchanged,
but the provenance set has already gained the resolved provenance of every
batch element strictly before the first non-conforming one. -/
theorem extend_fail_spec (a : NadaArray) (items : List Item) (e : Err)
    (h : (a.extend items).2 = some e) :
    (a.extend items).1.data = a.data ∧
    (a.extend items).1.parties =
      a.parties ∪ update_parties (items.takeWhile check_type) := by
  unfold NadaArray.extend at *
  cases hloop : add_parties_loop a.parties items with
  | mk ps err =>
      cases err with
      | none =>
          rw [hloop] at h
          exact Option.noConfusion h
      | some e' =>
          refine ⟨rfl, ?_⟩
          show ps = a.parties ∪ update_parties (items.takeWhile check_type)
          have hfst := add_parties_loop_fst items a.parties
          rw [hloop] at hfst
          exact hfst

/-- Witness for C3 as amended: the failing batch of the counterexample,
applied through the amended theorem. -/
theorem extend_fail_spec_witness :
    (NadaArray.extend ⟨[], ∅⟩ [Item.audited ["X"], Item.other]).1.data = [] ∧
    (NadaArray.extend ⟨[], ∅⟩ [Item.audited ["X"], Item.other]).1.parties =
      ∅ ∪ update_parties ([Item.audited ["X"], Item.other].takeWhile check_type) :=
  extend_fail_spec ⟨[], ∅⟩ [Item.audited ["X"], Item.other] Err.typeError rfl

theorem sumFold_ok (add : Item → Item → Item) (rest : List Item) (acc : Item)
    (h : ∀ e ∈ rest, check_type e = true) :
    sumFold add acc rest = .ok (rest.foldl add acc) := by
  induction rest generalizing acc with
  | nil => rfl
  | cons e l ih =>
      have hc : check_type e = true := h e (List.mem_cons_self e l)
      have hrest : ∀ x ∈ l, check_type x = true :=
        fun x hx => h x (List.mem_cons_of_mem e hx)
      simp only [sumFold, hc, if_true, List.foldl_cons]
      exact ih (add acc e) hrest

theorem sumFold_err (add : Item → Item → Item) (r1 : List Item) (e : Item)
    (r2 : List Item) (acc : Item)
    (h1 : ∀ x ∈ r1, check_type x = true) (he : check_type e = false) :
    sumFold add acc (r1 ++ e :: r2) = .error Err.typeError := by
  induction r1 generalizing acc with
  | nil => simp [sumFold, he]
  | cons x xs ih =>
      have hc : check_type x = true := h1 x (List.mem_cons_self x xs)
      have hrest : ∀ y ∈ xs, check_type y = true :=
        fun y hy => h1 y (List.mem_cons_of_mem x hy)
      simp only [List.cons_append, sumFold, hc, if_true]
      exact ih (add acc x) hrest

/-- C4: `sum_nada_array` on the empty sequence raises `IndexError`; on a
one-element sequence it returns the first element with no validation at all;
on a longer sequence whose tail elements are all accepted it returns the
strict left-to-right fold of the addition operator starting from the first
element; and it raises `TypeError` as soon as a tail element is not
accepted. -/
theorem sum_nada_array_spec (add : Item → Item → Item) (x : Item)
    (rest : List Item) :
    sum_nada_array add [] = .error Err.indexError ∧
    sum_nada_array add [x] = .ok x ∧
    ((∀ e ∈ rest, check_type e = true) →
      sum_nada_array add (x :: rest) = .ok (rest.foldl add x)) ∧
    (∀ r1 e r2, rest = r1 ++ e :: r2 → (∀ y ∈ r1, check_type y = true) →
      check_type e = false →
      sum_nada_array add (x :: rest) = .error Err.typeError) := by
  refine ⟨rfl, rfl, ?_, ?_⟩
  · intro h
    exact sumFold_ok add rest x h
  · intro r1 e r2 hrest h1 he
    subst hrest
    exact sumFold_err add r1 e r2 x h1 he

/-- Witness for C4: with a concrete addition operator that pairs the operand
provenance lists, `sum([s1, s2, s3])` is `(s1 + s2) + s3`; a non-conforming
second element raises `TypeError`; the first element is never validated. -/
theorem sum_nada_array_spec_witness :
    sum_nada_array (fun a b => Item.audited (gather_parties_item a ∪ gather_parties_item b).val.toList)
        [Item.audited ["A"], Item.audited ["B"], Item.audited ["C"]] =
      .ok ([Item.audited ["B"], Item.audited ["C"]].foldl
        (fun a b => Item.audited (gather_parties_item a ∪ gather_parties_item b).val.toList)
        (Item.audited ["A"])) ∧
    sum_nada_array (fun a _ => a) [Item.audited ["A"], Item.other] =
      .error Err.typeError ∧
    sum_nada_array (fun a _ => a) [Item.other] = .ok Item.other := by
  refine ⟨?_, ?_, ?_⟩
  · exact (sum_nada_array_spec _ (Item.audited ["A"])
      [Item.audited ["B"], Item.audited ["C"]]).2.2.1 (by decide)
  · exact (sum_nada_array_spec (fun a _ => a) (Item.audited ["A"])
      [Item.other]).2.2.2 [] Item.other [] rfl (by simp) rfl
  · exact (sum_nada_array_spec (fun a _ => a) Item.other []).2.1

/-- C5: provenance resolution returns the attached party names directly for
an audited value (no traversal), traverses the expression graph for a plain
value, and the traversal contributes the owning party's name at an `Input`
that has one (nothing otherwise), nothing at a `Literal` (not descended),
and at any other node the union of the traversals of exactly the exposed
links among inner/left/right/arg_0/arg_1/this, so that a node exposing none
of them contributes nothing and raises no error. -/
theorem gather_parties_resolution_spec (ps : List String) (n : ExprNode)
    (p : String) (i l r a0 a1 t : Option ExprNode) :
    gather_parties_item (Item.audited ps) = ps.toFinset ∧
    gather_parties_item (Item.plain n) = gather_parties n ∧
    gather_parties (ExprNode.input (some p)) = {p} ∧
    gather_parties (ExprNode.input none) = ∅ ∧
    gather_parties ExprNode.literal = ∅ ∧
    gather_parties (ExprNode.op i l r a0 a1 t) =
      gatherOpt i ∪ gatherOpt l ∪ gatherOpt r ∪
        gatherOpt a0 ∪ gatherOpt a1 ∪ gatherOpt t ∧
    gather_parties (ExprNode.op none none none none none none) = ∅ := by
  refine ⟨rfl, rfl, rfl, rfl, rfl, ?_, by decide⟩
  cases i <;> cases l <;> cases r <;> cases a0 <;> cases a1 <;> cases t <;> rfl

/-- Counterexample for C6: inserting an accepted item at index 5 into an
empty collection (valid positions would be only 0) does NOT fail with an
index error — the underlying `list.insert` clamps the index and appends. -/
theorem insert_bounds_cex :
    (NadaArray.insert ⟨[], ∅⟩ 5 (Item.audited ["A"])).2 = none ∧
    (NadaArray.insert ⟨[], ∅⟩ 5 (Item.audited ["A"])).1.data =
      [Item.audited ["A"]] :=
  ⟨rfl, rfl⟩

/-- C6 as amended: `insert` never raises an index error; an out-of-range
index is clamped (a negative index counts from the end, floored at the
front; an index past the length appends at the end, `index == length`
included), the accepted item is placed at the clamped position shifting
subsequent elements, and its resolved provenance is unioned into the cached
set; a non-conforming item still raises `TypeError` with no state change. -/
theorem insert_spec (a : NadaArray) (index : Int) (item : Item) :
    (check_type item = false → a.insert index item = (a, some Err.typeError)) ∧
    (check_type item = true →
      (a.insert index item).2 = none ∧
      (a.insert index item).1.data =
        a.data.take (pyInsertPos a.data.length index) ++
          item :: a.data.drop (pyInsertPos a.data.length index) ∧
      (a.insert index item).1.data.length = a.data.length + 1 ∧
      (a.insert index item).1.parties = a.parties ∪ gather_parties_item item ∧
      (0 ≤ index → index ≤ (a.data.length : Int) →
        (pyInsertPos a.data.length index : Int) = index)) := by
  constructor
  · intro hc
    simp [NadaArray.insert, hc]
  · intro hc
    refine ⟨by simp [NadaArray.insert, hc], ?_, ?_, by simp [NadaArray.insert, hc], ?_⟩
    · simp only [NadaArray.insert, hc, if_true]
      exact listInsertAt_eq_take_drop _ item a.data (pyInsertPos_le _ _)
    · simp only [NadaArray.insert, hc, if_true]
      exact listInsertAt_length _ item a.data
    · intro h0 hn
      unfold pyInsertPos
      rw [if_neg (by omega)]
      omega

/-- Witness for C6 as amended: inserting an accepted item at position 1 of a
two-element collection. -/
theorem insert_spec_witness :
    (NadaArray.insert ⟨[Item.audited ["A"], Item.audited ["B"]], {"A", "B"}⟩ 1
      (Item.audited ["C"])).1.data =
      [Item.audited ["A"], Item.audited ["C"], Item.audited ["B"]] ∧
    (NadaArray.insert ⟨[], ∅⟩ (-7) Item.other = (⟨[], ∅⟩, some Err.typeError)) := by
  constructor
  · have h := ((insert_spec ⟨[Item.audited ["A"], Item.audited ["B"]], {"A", "B"}⟩
      1 (Item.audited ["C"])).2 rfl).2.1
    rw [h]
    rfl
  · exact (insert_spec ⟨[], ∅⟩ (-7) Item.other).1 rfl

/-- Counterexample for C7: concatenating two empty collections raises
`IndexError` instead of producing the empty concatenation, because
`__init__` probes `args[0]` after replacing `args` by the (empty) list. -/
theorem add_empty_cex :
    (NadaArray.add ⟨[], ∅⟩ ⟨[], ∅⟩).2 = some Err.indexError := rfl

/-- C7 as amended: for well-formed collections `a` and `b` (every element
accepted, cached set consistent) at least one of which is non-empty, `a + b`
succeeds and produces a collection whose sequence is `a`'s followed by `b`'s,
with length the sum of lengths and provenance set `parties(a) ∪ parties(b)`;
neither operand is modified (the operation builds a fresh collection from
the concatenated element list).  Concatenating two empty collections instead
raises `IndexError`. -/
theorem add_spec (a b : NadaArray)
    (ha : ∀ it ∈ a.data, check_type it = true)
    (hb : ∀ it ∈ b.data, check_type it = true)
    (hpa : a.parties = update_parties a.data)
    (hpb : b.parties = update_parties b.data)
    (hne : a.data ++ b.data ≠ []) :
    (a.add b).2 = none ∧
    (a.add b).1.data = a.data ++ b.data ∧
    (a.add b).1.data.length = a.data.length + b.data.length ∧
    (a.add b).1.parties = a.parties ∪ b.parties := by
  obtain ⟨it0, rest, hcons⟩ : ∃ it0 rest, a.data ++ b.data = it0 :: rest := by
    cases hab : a.data ++ b.data with
    | nil => exact absurd hab hne
    | cons x xs => exact ⟨x, xs, rfl⟩
  have hall : ∀ it ∈ a.data ++ b.data, check_type it = true := by
    intro it hit
    rcases List.mem_append.1 hit with h | h
    · exact ha it h
    · exact hb it h
  have hmk : NadaArray.add a b =
      appendAll ⟨[], ∅⟩ (((a.data ++ b.data).map itemToPy).map toItem) := by
    unfold NadaArray.add mkNadaArray
    rw [hcons]
    simp only [List.map_cons]
    cases it0 <;> rfl
  have hround : ((a.data ++ b.data).map itemToPy).map toItem = a.data ++ b.data := by
    rw [List.map_map]
    exact List.map_congr_left (fun it _ => toItem_itemToPy it) |>.trans (List.map_id _)
  rw [hmk, hround, appendAll_ok _ _ hall]
  refine ⟨rfl, rfl, by simp, ?_⟩
  show (∅ : Finset String) ∪ update_parties (a.data ++ b.data) = a.parties ∪ b.parties
  rw [Finset.empty_union, update_parties_append, hpa, hpb]

/-- Witness for C7 as amended: two singleton collections, one from party `A`,
one from party `B`. -/
theorem add_spec_witness :
    (NadaArray.add ⟨[Item.audited ["A"]], {"A"}⟩ ⟨[Item.audited ["B"]], {"B"}⟩).1.data =
      [Item.audited ["A"], Item.audited ["B"]] ∧
    (NadaArray.add ⟨[Item.audited ["A"]], {"A"}⟩ ⟨[Item.audited ["B"]], {"B"}⟩).1.parties =
      {"A"} ∪ {"B"} := by
  have h := add_spec ⟨[Item.audited ["A"]], {"A"}⟩ ⟨[Item.audited ["B"]], {"B"}⟩
    (by decide) (by decide) (by decide) (by decide) (by simp)
  exact ⟨h.2.1, h.2.2.2⟩


/-- Counterexample for C8: a length-2 collection (built by the constructor)
whose elements resolve to provenance `{"a", "a!"}`.  The summary is built by
quoting each name and sorting the QUOTED strings, and `"'a!'"` precedes
`"'a'"` although `"a"` precedes `"a!"` as bare names, so the rendered names
are not in lexicographic order of the party names. -/
theorem toStr_sort_cex :
    (mkNadaArray [PyObj.list [PyObj.auditedInt ["a"],
        PyObj.auditedInt ["a!"]]]).1.toStr =
      "NadaArray | len=2 | parties=['a!','a']" ∧
    (mkNadaArray [PyObj.list [PyObj.auditedInt ["a"],
        PyObj.auditedInt ["a!"]]]).1.toStr ≠
      "NadaArray | len=2 | parties=['a','a!']" ∧
    (pyStrLe "a" "a!" ∧ ¬ pyStrLe "a!" "a") ∧
    (pyStrLe "'a!'" "'a'" ∧ ¬ pyStrLe "'a'" "'a!'") := by
  refine ⟨by decide, by decide, by decide, by decide⟩

/-- C8 as amended: the summary renders exactly
`"NadaArray | len=N | parties=[...]"` with `N` the current length, each party
name individually single-quoted, and the quoted strings comma-joined with no
trailing comma in lexicographic (code-point) order of the QUOTED strings —
which agrees with the order of the bare names whenever all name characters
compare above the single-quote character (e.g. alphanumeric names).  A
length-2 collection whose elements resolve to provenance `{"b","a"}` renders
`parties=['a','b']`. -/
theorem toStr_spec (a : NadaArray) :
    a.toStr = "NadaArray | len=" ++ toString a.data.length ++ " | parties=[" ++
      String.intercalate ","
        (pySorted (a.parties.val.map (fun p => "'" ++ p ++ "'"))) ++ "]" ∧
    List.Sorted pyStrLe (pySorted (a.parties.val.map (fun p => "'" ++ p ++ "'"))) ∧
    (∀ s ∈ pySorted (a.parties.val.map (fun p => "'" ++ p ++ "'")),
      ∃ p ∈ a.parties, s = "'" ++ p ++ "'") ∧
    (mkNadaArray [PyObj.list [PyObj.auditedInt ["b"],
        PyObj.auditedInt ["a"]]]).1.toStr =
      "NadaArray | len=2 | parties=['a','b']" := by
  refine ⟨rfl, ?_, ?_, by decide⟩
  · exact Quot.inductionOn (Multiset.map (fun p => "'" ++ p ++ "'") a.parties.val)
      (fun l => List.sorted_insertionSort pyStrLe l)
  · intro s hs
    have hmem : s ∈ Multiset.map (fun p => "'" ++ p ++ "'") a.parties.val := by
      revert hs
      refine Quot.inductionOn (Multiset.map (fun p => "'" ++ p ++ "'") a.parties.val)
        (fun l hs => ?_)
      exact (List.perm_insertionSort pyStrLe l).subset hs
    obtain ⟨p, hp, rfl⟩ := Multiset.mem_map.1 hmem
    exact ⟨p, hp, rfl⟩

/-- C9: `extend` called with a one-shot generator of accepted values
completes without error, appends nothing to the element sequence (the
validation loop already consumed the generator), and still folds every
generated element's resolved provenance into the cached set. -/
theorem extendGen_spec (a : NadaArray) (items : List Item)
    (h : ∀ e ∈ items, check_type e = true) :
    (a.extendGen items).2 = none ∧
    (a.extendGen items).1.data = a.data ∧
    (a.extendGen items).1.parties = a.parties ∪ update_parties items := by
  unfold NadaArray.extendGen
  rw [add_parties_loop_ok items a.parties h]
  exact ⟨rfl, rfl, rfl⟩

/-- Witness for C9: extending a one-element collection with a generator
yielding two audited values of parties `B` and `C`: no error, length still 1,
parties grown to `{A} ∪ {B, C}`. -/
theorem extendGen_spec_witness :
    (NadaArray.extendGen ⟨[Item.audited ["A"]], {"A"}⟩
      [Item.audited ["B"], Item.audited ["C"]]).2 = none ∧
    (NadaArray.extendGen ⟨[Item.audited ["A"]], {"A"}⟩
      [Item.audited ["B"], Item.audited ["C"]]).1.data = [Item.audited ["A"]] ∧
    (NadaArray.extendGen ⟨[Item.audited ["A"]], {"A"}⟩
      [Item.audited ["B"], Item.audited ["C"]]).1.parties =
      {"A"} ∪ update_parties [Item.audited ["B"], Item.audited ["C"]] :=
  extendGen_spec ⟨[Item.audited ["A"]], {"A"}⟩
    [Item.audited ["B"], Item.audited ["C"]] (by decide)

/-- C10: a single constructor argument is unpacked into elements only when
it is a list or a generator; a single tuple argument — whatever secret
values it holds — is treated as one candidate element, rejected with
`TypeError`, and no collection results.  A single generator argument is
materialised into its yields, and a single non-empty list argument whose
first element is not itself a generator becomes its elements. -/
theorem ctor_single_arg_spec (l : List PyObj) (items : List Item) (it0 : Item) :
    mkNadaArray [PyObj.tuple l] = (⟨[], ∅⟩, some Err.typeError) ∧
    ((∀ e ∈ items, check_type e = true) →
      mkNadaArray [PyObj.gen (items.map itemToPy)] =
        (⟨items, update_parties items⟩, none)) ∧
    ((∀ e ∈ it0 :: items, check_type e = true) →
      mkNadaArray [PyObj.list ((it0 :: items).map itemToPy)] =
        (⟨it0 :: items, update_parties (it0 :: items)⟩, none)) := by
  have hround : ∀ xs : List Item, (xs.map itemToPy).map toItem = xs := by
    intro xs
    rw [List.map_map]
    exact (List.map_congr_left (fun it _ => toItem_itemToPy it)).trans
      (List.map_id _)
  refine ⟨rfl, ?_, ?_⟩
  · intro h
    show appendAll ⟨[], ∅⟩ ((items.map itemToPy).map toItem) = _
    rw [hround, appendAll_ok items ⟨[], ∅⟩ h]
    simp
  · intro h
    have hmk : mkNadaArray [PyObj.list ((it0 :: items).map itemToPy)] =
        appendAll ⟨[], ∅⟩ (((it0 :: items).map itemToPy).map toItem) := by
      unfold mkNadaArray
      simp only [List.map_cons]
      cases it0 <;> rfl
    rw [hmk, hround, appendAll_ok _ ⟨[], ∅⟩ h]
    simp

/-- Witness for C10: a tuple of two perfectly acceptable audited values is
still rejected, while the same values arrive intact through a generator or
list argument. -/
theorem ctor_single_arg_spec_witness :
    mkNadaArray [PyObj.tuple [PyObj.auditedInt ["A"], PyObj.auditedInt ["B"]]] =
      (⟨[], ∅⟩, some Err.typeError) ∧
    mkNadaArray [PyObj.gen ([Item.audited ["A"], Item.audited ["B"]].map itemToPy)] =
      (⟨[Item.audited ["A"], Item.audited ["B"]],
        update_parties [Item.audited ["A"], Item.audited ["B"]]⟩, none) := by
  have h := ctor_single_arg_spec [PyObj.auditedInt ["A"], PyObj.auditedInt ["B"]]
    [Item.audited ["A"], Item.audited ["B"]] Item.other
  exact ⟨h.1, h.2.1 (by decide)⟩

/-- Witness for C8 as amended: in the rendered summary of a collection with
provenance `{"b","a"}`, the entry `'a'` of the sorted quoted list is the
quotation of a member party name. -/
theorem toStr_spec_witness :
    ∃ p ∈ (({"b", "a"} : Finset String) : Finset String), "'a'" = "'" ++ p ++ "'" :=
  (toStr_spec ⟨[Item.audited ["b"], Item.audited ["a"]], {"b", "a"}⟩).2.2.1
    "'a'" (by decide)
